import Mathlib

/-!
Shallow embedding of the Huffman compression engine of
`huffman_compression.py` (class `HuffmanCompressor`), together with proofs
of the behavioural properties claimed for it.

Modelling conventions:
* a Python `str` is a `List Char`; the bit-string built by the encoder is a
  `List Char` of `'0'`/`'1'` characters, exactly as in the source;
* a Python `dict` is an association list in insertion order; lookups take
  the first matching key (the dictionaries built here never carry duplicate
  keys, so this coincides with Python semantics);
* Python's `heapq` priority queue is modelled as a list kept sorted by
  ascending frequency: `heappush` inserts in order, `heappop` takes the
  head.  The heap contract (pop returns a minimum-frequency element) is
  preserved; the order among equal frequencies may differ from CPython's
  array heap, and every theorem below is independent of that tie order;
* `zlib.compress`/`zlib.decompress` and `base64.b64encode`/`b64decode` are
  external stdlib collaborators whose only contract used here is that each
  pair is mutually inverse; the two stages are modelled as the identity
  codec on the bit-string;
* the float expression `total_chars * (1 - (compression_percentage / 100))`
  is modelled exactly, by comparing `count * 100` with
  `total * (100 - percentage)` over `Int`.
-/

namespace HuffmanWeb

/-- Lookup in an association list, first matching key wins (Python `dict`
access for the duplicate-free dictionaries built by this program). -/
def dictGet {α β : Type} [DecidableEq α] : List (α × β) → α → Option β
  | [], _ => none
  | (k, v) :: rest, a => if a = k then some v else dictGet rest a

/-- Node of the Huffman tree (`HuffmanNode` in the source): a leaf carries a
character and its frequency, an internal node carries the merged frequency
and two children.  The source marks internal nodes with `char = None`;
here the two shapes are separate constructors. -/
inductive HuffmanNode where
  | leaf (char : Char) (freq : Nat)
  | node (freq : Nat) (left right : HuffmanNode)
deriving DecidableEq

/-- Frequency stored at a node (`self.freq`). -/
def HuffmanNode.freq : HuffmanNode → Nat
  | .leaf _ f => f
  | .node f _ _ => f

/-- Characters at the leaves of a tree, left to right. -/
def HuffmanNode.leaves : HuffmanNode → List Char
  | .leaf c _ => [c]
  | .node _ l r => l.leaves ++ r.leaves

namespace HuffmanCompressor

/-- One step of `freq_dict[char] += 1` on the insertion-ordered dictionary:
bump an existing entry in place, or append a fresh entry with count 1. -/
def bumpFreq (c : Char) : List (Char × Nat) → List (Char × Nat)
  | [] => [(c, 1)]
  | (k, f) :: rest => if c = k then (k, f + 1) :: rest else (k, f) :: bumpFreq c rest

/-- `HuffmanCompressor.build_frequency_dict`: count occurrences of each
character, keys in first-occurrence order. -/
def build_frequency_dict (data : List Char) : List (Char × Nat) :=
  data.foldl (fun m c => bumpFreq c m) []

/-- `heapq.heappush` on the sorted-list model of the heap: insert the node
before the first strictly larger frequency. -/
def heapPush (n : HuffmanNode) : List HuffmanNode → List HuffmanNode
  | [] => [n]
  | m :: ms => if n.freq < m.freq then n :: m :: ms else m :: heapPush n ms

/-- `heapq.heapify`: establish the priority-queue order. -/
def heapify (ns : List HuffmanNode) : List HuffmanNode :=
  ns.foldl (fun h n => heapPush n h) []

/-- The `while len(heap) > 1` merge loop of `build_huffman_tree`: pop the two
minimum-frequency nodes, merge them under an internal node carrying the sum
of their frequencies, push the merged node back.  Each iteration shrinks the
heap by one node, so the loop runs fewer than `heap.length` iterations; the
recursion is structural on that iteration bound (`fuel`), and
`build_huffman_tree` supplies the initial heap length, which always
suffices (`buildLoop_spec`), so the zero-fuel fallthrough is unreachable. -/
def buildLoop : Nat → List HuffmanNode → List HuffmanNode
  | _, [] => []
  | _, [t] => [t]
  | 0, heap => heap
  | fuel + 1, l :: r :: rest =>
      buildLoop fuel (heapPush (HuffmanNode.node (l.freq + r.freq) l r) rest)

/-- `HuffmanCompressor.build_huffman_tree`: heapify the leaves of the
frequency dictionary, run the merge loop, return the root
(`heap[0] if heap else None`). -/
def build_huffman_tree (freq_dict : List (Char × Nat)) : Option HuffmanNode :=
  let heap := heapify (freq_dict.map fun e => HuffmanNode.leaf e.1 e.2)
  match buildLoop heap.length heap with
  | t :: _ => some t
  | [] => none

/-- The recursive `traverse` helper of `build_huffman_codes`: a leaf yields
its accumulated path, an internal node recurses left with `'0'` appended and
right with `'1'` appended. -/
def traverse : HuffmanNode → List Char → List (Char × List Char)
  | .leaf c _, current_code => [(c, current_code)]
  | .node _ l r, current_code =>
      traverse l (current_code ++ ['0']) ++ traverse r (current_code ++ ['1'])

/-- `HuffmanCompressor.build_huffman_codes`: traversal from the root with the
empty path; a missing root (`None`) yields the empty table. -/
def build_huffman_codes : Option HuffmanNode → List (Char × List Char)
  | none => []
  | some root => traverse root []

/-- Insertion step of the stable ascending sort used for
`sorted(freq_dict.items(), key=lambda x: x[1])`. -/
def insertFreq (x : Char × Nat) : List (Char × Nat) → List (Char × Nat)
  | [] => [x]
  | y :: ys => if x.2 ≤ y.2 then x :: y :: ys else y :: insertFreq x ys

/-- Stable sort of the dictionary items by ascending frequency. -/
def sortByFreq (l : List (Char × Nat)) : List (Char × Nat) :=
  l.foldr insertFreq []

/-- The character-removal loop of `compress`: walk the sorted items and, while
the accumulated removed count has not yet reached the threshold, add the item
to the removal set.  `threshold100` is `total_chars * (100 - percentage)`, the
threshold scaled by 100 so the float comparison
`current_removed_count >= threshold` becomes exact integer arithmetic.
Returns the removed `(char, freq)` pairs in removal order. -/
def charsToRemove (threshold100 : Int) : List (Char × Nat) → Nat → List (Char × Nat)
  | [], _ => []
  | (c, f) :: rest, current_removed_count =>
      if (current_removed_count : Int) * 100 ≥ threshold100 then []
      else (c, f) :: charsToRemove threshold100 rest (current_removed_count + f)

/-- Value `sum(freq_dict.values())` computed by `compress`. -/
def totalChars (data : List Char) : Nat :=
  ((build_frequency_dict data).map (fun e => e.2)).sum

/-- The dropped `(char, freq)` pairs `compress` selects for the given data
and percentage. -/
def dropPairs (data : List Char) (percentage : Int) : List (Char × Nat) :=
  charsToRemove ((totalChars data : Int) * (100 - percentage))
    (sortByFreq (build_frequency_dict data)) 0

/-- The set `chars_to_remove` of `compress`, as the list of dropped
characters. -/
def dropSet (data : List Char) (percentage : Int) : List Char :=
  (dropPairs data percentage).map (fun e => e.1)

/-- Accumulated frequency mass of the dropped characters (the final value of
`current_removed_count` in `compress`). -/
def dropWeight (data : List Char) (percentage : Int) : Nat :=
  ((dropPairs data percentage).map (fun e => e.2)).sum

/-- The `filtered_freq_dict` of `compress`: the frequency dictionary without
the removed characters, in original order. -/
def retainedDict (data : List Char) (percentage : Int) : List (Char × Nat) :=
  (build_frequency_dict data).filter (fun e => !((dropSet data percentage).contains e.1))

/-- The zlib level-9 byte compression followed by base64 text encoding
applied to the encoded bit-string.  Both are external stdlib collaborators;
the only contract the program relies on is that the pair below is mutually
inverse, so the composite codec is modelled as the identity. -/
def zlibB64Encode (s : List Char) : List Char := s

/-- Inverse stage: base64 decoding followed by zlib decompression.  This is
the success-path value — the two stages are mutually inverse on payloads the
encode stage produced.  Decoding can also fail (`zlib.error`, the
`CorruptPayload` outcome of spec section 7); that happens only on payloads
the encode stage never emits — in particular the verbatim empty payload of
the empty-input short-circuit — and is modeled by `zlibB64DecodeChecked`
below. -/
def zlibB64Decode (s : List Char) : List Char := s

/-- `HuffmanCompressor.compress`: empty input short-circuits to an empty
payload and empty table; otherwise drop low-frequency characters, and if
nothing is retained fall back to returning the original data verbatim with
an empty table; otherwise build the tree and code table, map every input
character to its code (dropped characters contribute nothing), concatenate,
and pass the bit-string through the zlib+base64 stage. -/
def compress (data : List Char) (compression_percentage : Int) :
    List Char × List (Char × List Char) :=
  if data = [] then ([], [])
  else
    let filtered_freq_dict := retainedDict data compression_percentage
    if filtered_freq_dict = [] then (data, [])
    else
      let huffman_codes := build_huffman_codes (build_huffman_tree filtered_freq_dict)
      let compressed_data := (data.map (fun c => (dictGet huffman_codes c).getD [])).flatten
      (zlibB64Encode compressed_data, huffman_codes)

/-- The decoding state machine of `decompress`: append one bit at a time to
`current_code`; when the accumulator is a key of the reversed table, emit the
corresponding character and reset; trailing unmatched bits are discarded. -/
def decompressLoop (reverse_codes : List (List Char × Char)) :
    List Char → List Char → List Char
  | _, [] => []
  | current_code, bit :: rest =>
      match dictGet reverse_codes (current_code ++ [bit]) with
      | some ch => ch :: decompressLoop reverse_codes [] rest
      | none => decompressLoop reverse_codes (current_code ++ [bit]) rest

/-- `HuffmanCompressor.decompress`: reverse the code table, undo the
base64+zlib stage, then run the bit-accumulator loop. -/
def decompress (compressed_data : List Char) (huffman_codes : List (Char × List Char)) :
    List Char :=
  decompressLoop (huffman_codes.map fun e => (e.2, e.1)) [] (zlibB64Decode compressed_data)

/-- The base64+zlib decode stage with its stdlib failure contract visible:
`base64.b64decode("")` returns the empty byte string and `zlib.decompress`
raises `zlib.error` ("incomplete or truncated stream") on it, so decoding
the empty payload fails (`none`).  In the program the stored payload is the
empty text exactly when `compress` took the empty-input short-circuit, which
stores `""` verbatim without running the encode stage — a genuine zlib
stream is never empty, so encoded payloads (even of the empty bit-string)
are non-empty text and decode successfully.  The identity codec of this
model collapses the encoded empty bit-string onto the same value `[]`; this
definition resolves the empty payload as the unencoded short-circuit case,
the only case in which the program stores an empty payload and the only one
a theorem below decides with it. -/
def zlibB64DecodeChecked (compressed_data : List Char) : Option (List Char) :=
  if compressed_data.isEmpty then none else some (zlibB64Decode compressed_data)

/-- `HuffmanCompressor.decompress` with the decode-stage failure modeled:
`none` is the uncaught `zlib.error` (`CorruptPayload`, spec section 7),
`some` the normal return of the bit-accumulator loop. -/
def decompressChecked (compressed_data : List Char)
    (huffman_codes : List (Char × List Char)) : Option (List Char) :=
  match zlibB64DecodeChecked compressed_data with
  | none => none
  | some bits => some (decompressLoop (huffman_codes.map fun e => (e.2, e.1)) [] bits)

/-- The persisted container written by `compress_file` and read by
`decompress_file`: code table, payload, and recorded original length (read
back with `.get('original_length', None)`, hence optional). -/
structure Container where
  codes : List (Char × List Char)
  compressed_data : List Char
  original_length : Option Nat
deriving DecidableEq

/-- Core of `HuffmanCompressor.compress_file` (file I/O aside): compress the
data and record the code table, payload and original length. -/
def compress_file (data : List Char) (compression_percentage : Int) : Container :=
  { codes := (compress data compression_percentage).2
    compressed_data := (compress data compression_percentage).1
    original_length := some data.length }

/-- Core of `HuffmanCompressor.decompress_file` (file I/O aside): decompress
the payload against the stored table and, when an original length is
recorded, truncate the result to at most that many characters. -/
def decompress_file (cont : Container) : List Char :=
  match cont.original_length with
  | some n => (decompress cont.compressed_data cont.codes).take n
  | none => decompress cont.compressed_data cont.codes

/-- A code table is prefix-free in the strong sense: between any two distinct
entries, neither code is a prefix of the other (in particular all codes are
pairwise distinct). -/
def PrefixFreeTable (table : List (Char × List Char)) : Prop :=
  List.Pairwise (fun e₁ e₂ => ¬ e₁.2 <+: e₂.2 ∧ ¬ e₂.2 <+: e₁.2) table

/-- Multiset of leaf characters carried by a heap of nodes. -/
def leavesH (hs : List HuffmanNode) : List Char :=
  (hs.map HuffmanNode.leaves).flatten

theorem dictGet_some_mem {α β : Type} [DecidableEq α] {l : List (α × β)} {a : α} {b : β}
    (h : dictGet l a = some b) : (a, b) ∈ l := by
  induction l with
  | nil => simp [dictGet] at h
  | cons e rest ih =>
    obtain ⟨k, v⟩ := e
    by_cases hk : a = k
    · rw [dictGet, if_pos hk] at h
      obtain rfl := Option.some.inj h
      simp [hk]
    · rw [dictGet, if_neg hk] at h
      exact List.mem_cons_of_mem _ (ih h)

theorem dictGet_eq_none {α β : Type} [DecidableEq α] {l : List (α × β)} {a : α}
    (h : a ∉ l.map (fun e => e.1)) : dictGet l a = none := by
  induction l with
  | nil => rfl
  | cons e rest ih =>
    obtain ⟨k, v⟩ := e
    simp only [List.map_cons, List.mem_cons] at h
    push_neg at h
    rw [dictGet, if_neg h.1]
    exact ih h.2

theorem dictGet_isSome_of_mem {α β : Type} [DecidableEq α] {l : List (α × β)} {a : α} {b : β}
    (h : (a, b) ∈ l) : ∃ v, dictGet l a = some v := by
  induction l with
  | nil => simp at h
  | cons e rest ih =>
    obtain ⟨k, v⟩ := e
    by_cases hk : a = k
    · exact ⟨v, by rw [dictGet, if_pos hk]⟩
    · rw [dictGet, if_neg hk]
      rcases List.mem_cons.mp h with heq | hmem
      · exact absurd (congrArg Prod.fst heq) hk
      · exact ih hmem

theorem heapPush_perm (n : HuffmanNode) (h : List HuffmanNode) :
    List.Perm (heapPush n h) (n :: h) := by
  induction h with
  | nil => rfl
  | cons m ms ih =>
    by_cases hc : n.freq < m.freq
    · rw [heapPush, if_pos hc]
    · rw [heapPush, if_neg hc]
      exact (ih.cons m).trans (List.Perm.swap n m ms)

theorem heapify_perm (ns : List HuffmanNode) : List.Perm (heapify ns) ns := by
  have aux : ∀ (l : List HuffmanNode) (acc : List HuffmanNode),
      List.Perm (l.foldl (fun h n => heapPush n h) acc) (l ++ acc) := by
    intro l
    induction l with
    | nil => intro acc; simp
    | cons n l ih =>
      intro acc
      simp only [List.foldl_cons, List.cons_append]
      have h1 := ih (heapPush n acc)
      have h2 : List.Perm (l ++ heapPush n acc) (l ++ n :: acc) :=
        List.Perm.append_left l (heapPush_perm n acc)
      exact (h1.trans h2).trans List.perm_middle
  simpa [heapify] using aux ns []

theorem flatten_perm {α : Type} {l₁ l₂ : List (List α)} (h : List.Perm l₁ l₂) :
    List.Perm l₁.flatten l₂.flatten := by
  induction h with
  | nil => rfl
  | cons x _ ih => simpa using List.Perm.append_left x ih
  | swap x y l =>
    simp only [List.flatten_cons]
    have h1 : List.Perm ((y ++ x) ++ l.flatten) ((x ++ y) ++ l.flatten) :=
      List.Perm.append_right _ List.perm_append_comm
    simpa [List.append_assoc] using h1
  | trans _ _ ih₁ ih₂ => exact ih₁.trans ih₂

theorem leavesH_perm {h₁ h₂ : List HuffmanNode} (h : List.Perm h₁ h₂) :
    List.Perm (leavesH h₁) (leavesH h₂) :=
  flatten_perm (h.map HuffmanNode.leaves)

theorem heapPush_length (n : HuffmanNode) (l : List HuffmanNode) :
    (heapPush n l).length = l.length + 1 :=
  (heapPush_perm n l).length_eq

theorem buildLoop_spec (fuel : Nat) :
    ∀ heap : List HuffmanNode, heap ≠ [] → heap.length ≤ fuel + 1 →
    ∃ t, buildLoop fuel heap = [t] ∧ List.Perm t.leaves (leavesH heap) := by
  induction fuel with
  | zero =>
    intro heap hne hlen
    match heap with
    | [] => exact absurd rfl hne
    | [t] => exact ⟨t, rfl, by simp [leavesH]⟩
    | l :: r :: rest => simp at hlen
  | succ fuel ih =>
    intro heap hne hlen
    match heap with
    | [] => exact absurd rfl hne
    | [t] => exact ⟨t, rfl, by simp [leavesH]⟩
    | l :: r :: rest =>
      have hpne : heapPush (HuffmanNode.node (l.freq + r.freq) l r) rest ≠ [] := by
        intro hcon
        have := heapPush_length (HuffmanNode.node (l.freq + r.freq) l r) rest
        rw [hcon] at this
        simp at this
      have hplen : (heapPush (HuffmanNode.node (l.freq + r.freq) l r) rest).length ≤
          fuel + 1 := by
        rw [heapPush_length]
        simp only [List.length_cons] at hlen
        omega
      obtain ⟨t, ht, hperm⟩ := ih _ hpne hplen
      refine ⟨t, ht, ?_⟩
      refine hperm.trans ?_
      refine (leavesH_perm (heapPush_perm _ _)).trans ?_
      simp [leavesH, HuffmanNode.leaves, List.append_assoc]

theorem leavesH_map_leaf (fd : List (Char × Nat)) :
    leavesH (fd.map fun e => HuffmanNode.leaf e.1 e.2) = fd.map (fun e => e.1) := by
  induction fd with
  | nil => rfl
  | cons e rest ih => simp [leavesH, HuffmanNode.leaves] at ih ⊢; exact ih

theorem build_huffman_tree_spec (fd : List (Char × Nat)) (hne : fd ≠ []) :
    ∃ t, build_huffman_tree fd = some t ∧
      List.Perm t.leaves (fd.map (fun e => e.1)) := by
  have hlne : heapify (fd.map fun e => HuffmanNode.leaf e.1 e.2) ≠ [] := by
    have := (heapify_perm (fd.map fun e => HuffmanNode.leaf e.1 e.2)).length_eq
    intro hcon
    rw [hcon] at this
    simp only [List.length_nil, List.length_map] at this
    exact hne (List.eq_nil_of_length_eq_zero this.symm)
  obtain ⟨t, ht, hperm⟩ := buildLoop_spec
    (heapify (fd.map fun e => HuffmanNode.leaf e.1 e.2)).length _ hlne (by omega)
  refine ⟨t, ?_, ?_⟩
  · rw [build_huffman_tree]
    simp only [ht]
  · refine hperm.trans ?_
    refine (leavesH_perm (heapify_perm _)).trans ?_
    rw [leavesH_map_leaf]

theorem traverse_map_fst (t : HuffmanNode) (pre : List Char) :
    (traverse t pre).map (fun e => e.1) = t.leaves := by
  induction t generalizing pre with
  | leaf c f => rfl
  | node f l r ihl ihr => simp [traverse, HuffmanNode.leaves, ihl, ihr]

theorem mem_traverse_pre {t : HuffmanNode} {pre : List Char} {e : Char × List Char}
    (h : e ∈ traverse t pre) : pre <+: e.2 := by
  induction t generalizing pre with
  | leaf c f =>
    simp only [traverse, List.mem_singleton] at h
    rw [h]
  | node f l r ihl ihr =>
    simp only [traverse, List.mem_append] at h
    rcases h with h | h
    · exact ((pre.prefix_append ['0']).trans (ihl h))
    · exact ((pre.prefix_append ['1']).trans (ihr h))

theorem prefix_agree {s p₁ p₂ : List Char} (h₁ : p₁ <+: s) (h₂ : p₂ <+: s)
    (hlen : p₁.length = p₂.length) : p₁ = p₂ := by
  exact (List.prefix_of_prefix_length_le h₁ h₂ (le_of_eq hlen)).eq_of_length hlen

theorem traverse_pairwise (t : HuffmanNode) (pre : List Char) :
    PrefixFreeTable (traverse t pre) := by
  induction t generalizing pre with
  | leaf c f => simp [traverse, PrefixFreeTable]
  | node f l r ihl ihr =>
    rw [traverse, PrefixFreeTable, List.pairwise_append]
    refine ⟨ihl _, ihr _, ?_⟩
    intro e₁ h₁ e₂ h₂
    have hp₁ := mem_traverse_pre h₁
    have hp₂ := mem_traverse_pre h₂
    constructor
    · intro hcon
      have hboth : pre ++ ['0'] = pre ++ ['1'] :=
        prefix_agree (hp₁.trans hcon) hp₂ (by simp)
      simp at hboth
    · intro hcon
      have hboth : pre ++ ['1'] = pre ++ ['0'] :=
        prefix_agree (hp₂.trans hcon) hp₁ (by simp)
      simp at hboth

theorem traverse_node_code_ne_nil {f : Nat} {l r : HuffmanNode} {e : Char × List Char}
    (h : e ∈ traverse (HuffmanNode.node f l r) []) : e.2 ≠ [] := by
  simp only [traverse, List.nil_append, List.mem_append] at h
  rcases h with h | h
  · obtain ⟨tl, htl⟩ := mem_traverse_pre h
    intro hcon
    rw [hcon] at htl
    simp at htl
  · obtain ⟨tl, htl⟩ := mem_traverse_pre h
    intro hcon
    rw [hcon] at htl
    simp at htl

theorem mem_swap {table : List (Char × List Char)} {code : List Char} {c : Char} :
    (code, c) ∈ table.map (fun e => (e.2, e.1)) ↔ (c, code) ∈ table := by
  rw [List.mem_map]
  constructor
  · rintro ⟨e, hm, heq⟩
    have h1 : e.2 = code := congrArg Prod.fst heq
    have h2 : e.1 = c := congrArg Prod.snd heq
    have : e = (c, code) := Prod.ext_iff.mpr ⟨h2, h1⟩
    rwa [this] at hm
  · intro hm
    exact ⟨(c, code), hm, rfl⟩

theorem pft_forall {table : List (Char × List Char)} (hpf : PrefixFreeTable table) :
    ∀ e₁ ∈ table, ∀ e₂ ∈ table, e₁ ≠ e₂ →
      ¬ e₁.2 <+: e₂.2 ∧ ¬ e₂.2 <+: e₁.2 := by
  intro e₁ h₁ e₂ h₂ hne
  exact List.Pairwise.forall (fun a b h => ⟨h.2, h.1⟩) hpf h₁ h₂ hne

theorem pft_entry_eq {table : List (Char × List Char)} (hpf : PrefixFreeTable table)
    {e₁ e₂ : Char × List Char} (h₁ : e₁ ∈ table) (h₂ : e₂ ∈ table)
    (hpre : e₁.2 <+: e₂.2) : e₁ = e₂ := by
  by_contra hne
  exact (pft_forall hpf e₁ h₁ e₂ h₂ hne).1 hpre

theorem dictGet_rev_code {table : List (Char × List Char)} (hpf : PrefixFreeTable table)
    {c : Char} {code : List Char} (hmem : (c, code) ∈ table) :
    dictGet (table.map fun e => (e.2, e.1)) code = some c := by
  induction table with
  | nil => simp at hmem
  | cons e rest ih =>
    simp only [List.map_cons]
    by_cases hk : code = e.2
    · rw [dictGet, if_pos hk]
      have hp : ((c, code).2 : List Char) <+: e.2 := by
        rw [show ((c, code).2 : List Char) = code from rfl, hk]
      have heq : (c, code) = e := pft_entry_eq hpf hmem (List.mem_cons_self e rest) hp
      rw [← heq]
    · rw [dictGet, if_neg hk]
      rcases List.mem_cons.mp hmem with heq | hmem'
      · exact absurd (congrArg Prod.snd heq) hk
      · exact ih (List.Pairwise.of_cons hpf) hmem'

theorem dictGet_rev_take {table : List (Char × List Char)} (hpf : PrefixFreeTable table)
    {c : Char} {code : List Char} (hmem : (c, code) ∈ table) {k : Nat}
    (hk : k < code.length) :
    dictGet (table.map fun e => (e.2, e.1)) (code.take k) = none := by
  cases hd : dictGet (table.map fun e => (e.2, e.1)) (code.take k) with
  | none => rfl
  | some ch =>
    exfalso
    have hmem' : (ch, code.take k) ∈ table := mem_swap.mp (dictGet_some_mem hd)
    have hpre : (ch, code.take k).2 <+: (c, code).2 := List.take_prefix k code
    have heq := pft_entry_eq hpf hmem' hmem hpre
    have hlen : (code.take k).length = code.length :=
      congrArg (fun e => e.2.length) heq
    rw [List.length_take] at hlen
    omega

theorem take_append_cons (pre : List Char) (b : Char) (l : List Char) :
    (pre ++ b :: l).take (pre.length + 1) = pre ++ [b] := by
  induction pre with
  | nil => simp
  | cons x xs ih => simp [ih]

theorem decompressLoop_aux {rev : List (List Char × Char)} {code : List Char} {c : Char}
    (hsome : dictGet rev code = some c)
    (hpre : ∀ k, k < code.length → dictGet rev (code.take k) = none) :
    ∀ (suf pre : List Char), pre ++ suf = code → suf ≠ [] →
    ∀ rest, decompressLoop rev pre (suf ++ rest) = c :: decompressLoop rev [] rest := by
  intro suf
  induction suf with
  | nil => intro pre _ hcon; exact absurd rfl hcon
  | cons b suf' ih =>
    intro pre hsplit _ rest
    rw [List.cons_append, decompressLoop]
    cases suf' with
    | nil =>
      have hfull : pre ++ [b] = code := by simpa using hsplit
      rw [hfull, hsome]
      rfl
    | cons b' suf'' =>
      have htake : code.take (pre.length + 1) = pre ++ [b] := by
        rw [← hsplit]
        exact take_append_cons pre b (b' :: suf'')
      have hlt : pre.length + 1 < code.length := by
        rw [← hsplit]
        simp only [List.length_append, List.length_cons]
        omega
      rw [show pre ++ [b] = code.take (pre.length + 1) from htake.symm, hpre _ hlt, htake]
      exact ih (pre ++ [b]) (by simpa [List.append_assoc] using hsplit) (by simp) rest

theorem decompressLoop_emit {rev : List (List Char × Char)} {code : List Char} {c : Char}
    (hsome : dictGet rev code = some c)
    (hpre : ∀ k, k < code.length → dictGet rev (code.take k) = none)
    (hne : code ≠ []) (rest : List Char) :
    decompressLoop rev [] (code ++ rest) = c :: decompressLoop rev [] rest :=
  decompressLoop_aux hsome hpre code [] rfl hne rest

theorem decode_flatten {table : List (Char × List Char)} (hpf : PrefixFreeTable table)
    (hnn : ∀ e ∈ table, e.2 ≠ []) :
    ∀ cs : List Char, (∀ c ∈ cs, c ∈ table.map (fun e => e.1)) →
    decompressLoop (table.map fun e => (e.2, e.1)) []
      ((cs.map (fun c => (dictGet table c).getD [])).flatten) = cs := by
  intro cs
  induction cs with
  | nil => intro _; rfl
  | cons c cs' ih =>
    intro hmem
    have hc : c ∈ table.map (fun e => e.1) := hmem c (List.mem_cons_self c cs')
    obtain ⟨e, he, hfst⟩ := List.mem_map.mp hc
    have he' : (c, e.2) ∈ table := by
      have : e = (c, e.2) := Prod.ext_iff.mpr ⟨hfst, rfl⟩
      rwa [this] at he
    obtain ⟨code, hcode⟩ := dictGet_isSome_of_mem he'
    have hmemc : (c, code) ∈ table := dictGet_some_mem hcode
    have hne : code ≠ [] := hnn (c, code) hmemc
    simp only [List.map_cons, List.flatten_cons, hcode, Option.getD_some]
    rw [decompressLoop_emit (dictGet_rev_code hpf hmemc)
      (fun k hk => dictGet_rev_take hpf hmemc hk) hne]
    rw [ih (fun x hx => hmem x (List.mem_cons_of_mem c hx))]

theorem mem_bumpFreq_keys {c x : Char} {m : List (Char × Nat)} :
    x ∈ (bumpFreq c m).map (fun e => e.1) ↔ x = c ∨ x ∈ m.map (fun e => e.1) := by
  induction m with
  | nil => simp [bumpFreq]
  | cons e rest ih =>
    obtain ⟨k, f⟩ := e
    by_cases hc : c = k
    · rw [bumpFreq, if_pos hc]
      subst hc
      simp
    · rw [bumpFreq, if_neg hc]
      simp only [List.map_cons, List.mem_cons] at ih ⊢
      tauto

theorem mem_build_frequency_dict_keys (data : List Char) (x : Char) :
    x ∈ (build_frequency_dict data).map (fun e => e.1) ↔ x ∈ data := by
  have aux : ∀ (l : List Char) (m : List (Char × Nat)),
      x ∈ (l.foldl (fun m c => bumpFreq c m) m).map (fun e => e.1) ↔
        x ∈ m.map (fun e => e.1) ∨ x ∈ l := by
    intro l
    induction l with
    | nil => intro m; simp
    | cons c l ih =>
      intro m
      rw [List.foldl_cons, ih, mem_bumpFreq_keys]
      simp only [List.mem_cons]
      tauto
  simpa [build_frequency_dict] using aux data []

theorem insertFreq_perm (x : Char × Nat) (l : List (Char × Nat)) :
    List.Perm (insertFreq x l) (x :: l) := by
  induction l with
  | nil => rfl
  | cons y ys ih =>
    by_cases hc : x.2 ≤ y.2
    · rw [insertFreq, if_pos hc]
    · rw [insertFreq, if_neg hc]
      exact (ih.cons y).trans (List.Perm.swap x y ys)

theorem sortByFreq_perm (l : List (Char × Nat)) : List.Perm (sortByFreq l) l := by
  induction l with
  | nil => rfl
  | cons e rest ih =>
    rw [sortByFreq, List.foldr_cons]
    exact (insertFreq_perm e _).trans (ih.cons e)

theorem charsToRemove_ge_or_eq (T : Int) (l : List (Char × Nat)) :
    ∀ c0 : Nat,
      ((c0 + ((charsToRemove T l c0).map (fun e => e.2)).sum : Nat) : Int) * 100 ≥ T ∨
        charsToRemove T l c0 = l := by
  induction l with
  | nil => intro c0; right; rfl
  | cons e rest ih =>
    intro c0
    obtain ⟨c, f⟩ := e
    by_cases hc : (c0 : Int) * 100 ≥ T
    · left
      rw [charsToRemove, if_pos hc]
      simpa using hc
    · rw [charsToRemove, if_neg hc]
      rcases ih (c0 + f) with h | h
      · left
        simp only [List.map_cons, List.sum_cons]
        push_cast at h ⊢
        linarith
      · right
        rw [h]

theorem charsToRemove_last (T : Int) (l : List (Char × Nat)) :
    ∀ (c0 : Nat) (last : Char × Nat),
      (charsToRemove T l c0).getLast? = some last →
      ((c0 : Int) + (((charsToRemove T l c0).map (fun e => e.2)).sum : Nat) -
        (last.2 : Nat)) * 100 < T := by
  induction l with
  | nil => intro c0 last h; simp [charsToRemove] at h
  | cons e rest ih =>
    intro c0 last h
    obtain ⟨c, f⟩ := e
    by_cases hc : (c0 : Int) * 100 ≥ T
    · rw [charsToRemove, if_pos hc] at h
      simp at h
    · rw [charsToRemove, if_neg hc] at h ⊢
      cases hr : charsToRemove T rest (c0 + f) with
      | nil =>
        rw [hr] at h
        simp only [List.getLast?_singleton, Option.some.injEq] at h
        rw [← h]
        simp only [hr, List.map_cons, List.map_nil, List.sum_cons, List.sum_nil]
        push_cast
        linarith [not_le.mp hc]
      | cons y ys =>
        rw [hr] at h
        rw [List.getLast?_cons_cons] at h
        have := ih (c0 + f) last (by rw [hr]; exact h)
        rw [hr] at this
        simp only [List.map_cons, List.sum_cons] at this ⊢
        push_cast at this ⊢
        linarith

theorem charsToRemove_length (T : Int) (l : List (Char × Nat)) :
    ∀ c0 : Nat, (charsToRemove T l c0).length ≤ l.length := by
  induction l with
  | nil => intro c0; simp [charsToRemove]
  | cons e rest ih =>
    intro c0
    obtain ⟨c, f⟩ := e
    by_cases hc : (c0 : Int) * 100 ≥ T
    · rw [charsToRemove, if_pos hc]
      simp
    · rw [charsToRemove, if_neg hc]
      simpa using ih (c0 + f)

theorem charsToRemove_nonpos (T : Int) (l : List (Char × Nat)) (hT : T ≤ 0) :
    charsToRemove T l 0 = [] := by
  cases l with
  | nil => rfl
  | cons e rest =>
    obtain ⟨c, f⟩ := e
    rw [charsToRemove, if_pos (by simpa using hT)]

theorem flatten_map_filter (f : Char → List Char) (g : Char → Bool) :
    ∀ data : List Char, (∀ c ∈ data, g c = false → f c = []) →
      (data.map f).flatten = ((data.filter g).map f).flatten := by
  intro data
  induction data with
  | nil => intro _; rfl
  | cons c rest ih =>
    intro h
    cases hg : g c with
    | true =>
      rw [List.filter_cons_of_pos hg]
      simp only [List.map_cons, List.flatten_cons]
      rw [ih (fun x hx hfx => h x (List.mem_cons_of_mem c hx) hfx)]
    | false =>
      have hfc : f c = [] := h c (List.mem_cons_self c rest) hg
      rw [List.filter_cons_of_neg (by simp [hg])]
      simp only [List.map_cons, List.flatten_cons, hfc, List.nil_append]
      exact ih (fun x hx hfx => h x (List.mem_cons_of_mem c hx) hfx)

theorem compress_eq_main {data : List Char} {p : Int} (hdata : data ≠ [])
    (hfil : retainedDict data p ≠ []) :
    compress data p =
      ((data.map (fun c =>
          (dictGet (build_huffman_codes (build_huffman_tree (retainedDict data p))) c).getD
            [])).flatten,
        build_huffman_codes (build_huffman_tree (retainedDict data p))) := by
  rw [compress, if_neg hdata]
  simp only [zlibB64Encode]
  rw [if_neg hfil]

theorem roundtrip_retained (data : List Char) (p : Int)
    (h2 : 2 ≤ (retainedDict data p).length) :
    decompress (compress data p).1 (compress data p).2 =
      data.filter (fun c => !((dropSet data p).contains c)) := by
  have hdata : data ≠ [] := by
    intro h
    subst h
    simp [retainedDict, build_frequency_dict] at h2
  have hfil : retainedDict data p ≠ [] := by
    intro h
    rw [h] at h2
    simp at h2
  obtain ⟨t, ht, hleaves⟩ := build_huffman_tree_spec _ hfil
  cases t with
  | leaf c f =>
    exfalso
    have hlen := hleaves.length_eq
    simp only [HuffmanNode.leaves, List.length_singleton, List.length_map] at hlen
    omega
  | node f l r =>
    have hcodes : build_huffman_codes (build_huffman_tree (retainedDict data p)) =
        traverse (HuffmanNode.node f l r) [] := by
      rw [ht]
      rfl
    have hpf : PrefixFreeTable (traverse (HuffmanNode.node f l r) []) :=
      traverse_pairwise _ []
    have hkeys : (traverse (HuffmanNode.node f l r) []).map (fun e => e.1) =
        (HuffmanNode.node f l r).leaves := traverse_map_fst _ []
    have hnn : ∀ e ∈ traverse (HuffmanNode.node f l r) [], e.2 ≠ [] :=
      fun e he => traverse_node_code_ne_nil he
    rw [compress_eq_main hdata hfil]
    simp only [hcodes]
    rw [decompress]
    simp only [zlibB64Decode]
    have hdrop_none : ∀ c ∈ data, (!((dropSet data p).contains c)) = false →
        (dictGet (traverse (HuffmanNode.node f l r) []) c).getD [] = [] := by
      intro c hcd hcf
      have hcmem : c ∈ dropSet data p := by simpa using hcf
      have hnotin : c ∉ (traverse (HuffmanNode.node f l r) []).map (fun e => e.1) := by
        rw [hkeys]
        intro hleaf
        have hcr : c ∈ (retainedDict data p).map (fun e => e.1) := hleaves.mem_iff.mp hleaf
        obtain ⟨e, he, hfst⟩ := List.mem_map.mp hcr
        have hp := (List.mem_filter.mp he).2
        rw [hfst] at hp
        simp at hp
        exact hp hcmem
      rw [dictGet_eq_none hnotin]
      rfl
    rw [flatten_map_filter _ _ data hdrop_none]
    have hmemall : ∀ c ∈ data.filter (fun c => !((dropSet data p).contains c)),
        c ∈ (traverse (HuffmanNode.node f l r) []).map (fun e => e.1) := by
      intro c hc
      obtain ⟨hcd, hcg⟩ := List.mem_filter.mp hc
      have hck : c ∈ (build_frequency_dict data).map (fun e => e.1) :=
        (mem_build_frequency_dict_keys data c).mpr hcd
      obtain ⟨e, he, hfst⟩ := List.mem_map.mp hck
      have hef : e ∈ retainedDict data p := by
        rw [retainedDict]
        exact List.mem_filter.mpr ⟨he, by rw [hfst]; exact hcg⟩
      rw [hkeys]
      exact hleaves.mem_iff.mpr (List.mem_map.mpr ⟨e, hef, hfst⟩)
    exact decode_flatten hpf hnn _ hmemall

theorem decompressLoop_mem {rev : List (List Char × Char)} :
    ∀ (bits acc : List Char) (c : Char), c ∈ decompressLoop rev acc bits →
      c ∈ rev.map (fun e => e.2) := by
  intro bits
  induction bits with
  | nil => intro acc c h; simp [decompressLoop] at h
  | cons b bs ih =>
    intro acc c h
    rw [decompressLoop] at h
    cases hd : dictGet rev (acc ++ [b]) with
    | some ch =>
      rw [hd] at h
      rcases List.mem_cons.mp h with rfl | h'
      · exact List.mem_map.mpr ⟨(acc ++ [b], c), dictGet_some_mem hd, rfl⟩
      · exact ih [] c h'
    | none =>
      rw [hd] at h
      exact ih _ c h

theorem decompressLoop_nil_table : ∀ (bits acc : List Char),
    decompressLoop [] acc bits = [] := by
  intro bits
  induction bits with
  | nil => intro acc; rfl
  | cons b bs ih =>
    intro acc
    rw [decompressLoop]
    exact ih (acc ++ [b])

/-- C1 (counterexample): for the non-empty single-symbol input `"a"` and
percentage 100 the round trip is not lossless: the single retained symbol
gets the empty code, so the decoder emits nothing. -/
theorem c1_single_symbol_not_lossless :
    decompress (compress ['a'] 100).1 (compress ['a'] 100).2 ≠ ['a'] := by decide

/-- C1 (amended): for every input whose alphabet has at least two distinct
symbols and percentage 100, the drop budget is 0, no symbol is removed, and
decompressing the result of compress yields exactly the original input. -/
theorem c1_roundtrip_lossless (data : List Char)
    (h2 : 2 ≤ (build_frequency_dict data).length) :
    decompress (compress data 100).1 (compress data 100).2 = data := by
  have hdrop : dropSet data 100 = [] := by
    rw [dropSet, dropPairs, charsToRemove_nonpos _ _ (by norm_num)]
    rfl
  have hret : retainedDict data 100 = build_frequency_dict data := by
    rw [retainedDict, hdrop]
    simp
  have h2' : 2 ≤ (retainedDict data 100).length := by rw [hret]; exact h2
  have hr := roundtrip_retained data 100 h2'
  rw [hdrop] at hr
  simpa using hr

/-- C1 (witness): the amended round trip at the concrete input `"ab"`. -/
theorem c1_roundtrip_lossless_witness :
    2 ≤ (build_frequency_dict ['a', 'b']).length ∧
      decompress (compress ['a', 'b'] 100).1 (compress ['a', 'b'] 100).2 = ['a', 'b'] :=
  ⟨by decide, c1_roundtrip_lossless ['a', 'b'] (by decide)⟩

/-- C2 (counterexample): for input `"abb"` and percentage 67 exactly one
symbol (`b`) is retained, yet decompression does not return the retained
subsequence `"bb"`: the lone retained symbol gets the empty code and the
decoder emits nothing. -/
theorem c2_single_retained_not_subsequence :
    (retainedDict ['a', 'b', 'b'] 67).length = 1 ∧
    ['a', 'b', 'b'].filter (fun c => !((dropSet ['a', 'b', 'b'] 67).contains c)) =
      ['b', 'b'] ∧
    decompress (compress ['a', 'b', 'b'] 67).1 (compress ['a', 'b', 'b'] 67).2 ≠
      ['b', 'b'] :=
  ⟨by decide, by decide, by decide⟩

/-- C2 (amended): for every input and percentage below 100 for which at least
two symbols are retained, decompressing the output of compress returns the
input with every occurrence of every dropped symbol removed and the remaining
symbols in their original relative order. -/
theorem c2_roundtrip_filtered (data : List Char) (p : Int) (hp : p < 100)
    (h2 : 2 ≤ (retainedDict data p).length) :
    decompress (compress data p).1 (compress data p).2 =
      data.filter (fun c => !((dropSet data p).contains c)) :=
  roundtrip_retained data p h2

/-- C2 (witness): the amended statement at input `"aaabbbccd"`, percentage 80
(drops `d` and `c`, retains `a` and `b`). -/
theorem c2_roundtrip_filtered_witness :
    (80 : Int) < 100 ∧
    2 ≤ (retainedDict ['a', 'a', 'a', 'b', 'b', 'b', 'c', 'c', 'd'] 80).length ∧
    decompress (compress ['a', 'a', 'a', 'b', 'b', 'b', 'c', 'c', 'd'] 80).1
        (compress ['a', 'a', 'a', 'b', 'b', 'b', 'c', 'c', 'd'] 80).2 =
      ['a', 'a', 'a', 'b', 'b', 'b', 'c', 'c', 'd'].filter
        (fun c => !((dropSet ['a', 'a', 'a', 'b', 'b', 'b', 'c', 'c', 'd'] 80).contains c)) :=
  ⟨by decide, by decide,
    c2_roundtrip_filtered ['a', 'a', 'a', 'b', 'b', 'b', 'c', 'c', 'd'] 80 (by decide)
      (by decide)⟩

/-- C3 (code bug): `compress` performs no percentage validation at all.  For
the out-of-range percentage 150 it returns a normal compressed result, and
for the out-of-range percentage 0 it drops every symbol and returns the
verbatim-fallback result — in neither case does it fail. -/
theorem c3_no_percentage_validation :
    compress ['a', 'b'] 150 = (['0', '1'], [('a', ['0']), ('b', ['1'])]) ∧
      compress ['a'] 0 = (['a'], []) :=
  ⟨by decide, by decide⟩

/-- C4 (code bug): on a frequency map with exactly one retained symbol the
code generator assigns that symbol the empty bit-string, not a 1-bit code:
the single-leaf traversal returns its accumulated path `""` unchanged. -/
theorem c4_single_leaf_empty_code :
    build_huffman_codes (build_huffman_tree [('a', 3)]) = [('a', [])] := by decide

/-- C5 (code bug): compress of the empty string does return an empty payload
and an empty code table, and the persisted container records original
length 0 — but decompress applied to that empty payload and empty table does
not return the empty string: the short-circuit stored the payload verbatim
without running the encode stage, and the decode stage fails on it
(`zlib.decompress` raises on the empty byte string) instead of producing
`""`. -/
theorem c5_empty_payload_decode_fails (p : Int) :
    compress [] p = ([], []) ∧ compress_file [] p = ⟨[], [], some 0⟩ ∧
      decompressChecked [] [] = none :=
  ⟨rfl, rfl, rfl⟩

/-- C6: for every input and percentage in (0,100], the drop set chosen by
compress accumulates at least the removal budget
`totalChars * (1 - percentage/100)`, overshoots it by at most the frequency
of the last symbol added, never holds more symbols than the alphabet, and at
percentage 100 (budget 0) is empty.  The budget comparison is stated exactly,
scaled by 100. -/
theorem c6_dropset_budget (data : List Char) (p : Int) (h0 : 0 < p) (h1 : p ≤ 100) :
    ((dropWeight data p : Int) * 100 ≥ (totalChars data : Int) * (100 - p)) ∧
    (∀ last, (dropPairs data p).getLast? = some last →
      (dropWeight data p : Int) * 100 ≤
        (totalChars data : Int) * (100 - p) + (last.2 : Int) * 100) ∧
    (dropPairs data p).length ≤ (build_frequency_dict data).length ∧
    (p = 100 → dropPairs data p = []) := by
  have hsum : ((sortByFreq (build_frequency_dict data)).map (fun e => e.2)).sum =
      totalChars data := by
    rw [totalChars]
    exact ((sortByFreq_perm (build_frequency_dict data)).map (fun e => e.2)).sum_eq
  refine ⟨?_, ?_, ?_, ?_⟩
  · simp only [dropWeight, dropPairs]
    rcases charsToRemove_ge_or_eq ((totalChars data : Int) * (100 - p))
        (sortByFreq (build_frequency_dict data)) 0 with h | h
    · simpa using h
    · rw [h, hsum]
      have hle : (totalChars data : Int) * (100 - p) ≤ (totalChars data : Int) * 100 :=
        mul_le_mul_of_nonneg_left (by omega) (Int.ofNat_nonneg _)
      linarith
  · intro last h
    simp only [dropPairs] at h
    have hlt := charsToRemove_last ((totalChars data : Int) * (100 - p))
      (sortByFreq (build_frequency_dict data)) 0 last h
    simp only [dropWeight, dropPairs]
    push_cast at hlt ⊢
    linarith
  · have hl := charsToRemove_length ((totalChars data : Int) * (100 - p))
      (sortByFreq (build_frequency_dict data)) 0
    have hp := (sortByFreq_perm (build_frequency_dict data)).length_eq
    simp only [dropPairs]
    omega
  · intro hp
    subst hp
    simp only [dropPairs]
    exact charsToRemove_nonpos _ _ (by norm_num)

/-- C6 (witness): the budget bounds at the spec's example input
`"aaabbbccd"` with percentage 10. -/
theorem c6_dropset_budget_witness :
    (0 : Int) < 10 ∧ (10 : Int) ≤ 100 ∧
    (((dropWeight ['a', 'a', 'a', 'b', 'b', 'b', 'c', 'c', 'd'] 10 : Int) * 100 ≥
        (totalChars ['a', 'a', 'a', 'b', 'b', 'b', 'c', 'c', 'd'] : Int) * (100 - 10)) ∧
      (∀ last,
        (dropPairs ['a', 'a', 'a', 'b', 'b', 'b', 'c', 'c', 'd'] 10).getLast? =
            some last →
          (dropWeight ['a', 'a', 'a', 'b', 'b', 'b', 'c', 'c', 'd'] 10 : Int) * 100 ≤
            (totalChars ['a', 'a', 'a', 'b', 'b', 'b', 'c', 'c', 'd'] : Int) *
                (100 - 10) + (last.2 : Int) * 100) ∧
      (dropPairs ['a', 'a', 'a', 'b', 'b', 'b', 'c', 'c', 'd'] 10).length ≤
        (build_frequency_dict ['a', 'a', 'a', 'b', 'b', 'b', 'c', 'c', 'd']).length ∧
      ((10 : Int) = 100 → dropPairs ['a', 'a', 'a', 'b', 'b', 'b', 'c', 'c', 'd'] 10 = [])) :=
  ⟨by decide, by decide,
    c6_dropset_budget ['a', 'a', 'a', 'b', 'b', 'b', 'c', 'c', 'd'] 10 (by decide)
      (by decide)⟩

/-- C7: for every frequency distribution, including the single-symbol case,
the code table produced by tree build plus code generation contains no code
that is a proper prefix of another code in the table. -/
theorem c7_code_table_no_proper_prefixes (freq_dict : List (Char × Nat)) :
    List.Pairwise (fun e₁ e₂ =>
        ¬ (e₁.2 <+: e₂.2 ∧ e₁.2 ≠ e₂.2) ∧ ¬ (e₂.2 <+: e₁.2 ∧ e₂.2 ≠ e₁.2))
      (build_huffman_codes (build_huffman_tree freq_dict)) := by
  cases ht : build_huffman_tree freq_dict with
  | none => simp [build_huffman_codes]
  | some t =>
    have hp := traverse_pairwise t []
    rw [PrefixFreeTable] at hp
    simp only [build_huffman_codes]
    exact hp.imp (fun h => ⟨fun hc => h.1 hc.1, fun hc => h.2 hc.1⟩)

/-- C8: whenever the container records an original length, the file-level
decompression truncates to at most that many symbols and never pads: its
output is no longer than the recorded length, and no longer than the raw
decoder output. -/
theorem c8_truncate_to_original_length (cont : Container) (n : Nat)
    (h : cont.original_length = some n) :
    (decompress_file cont).length ≤ n ∧
      (decompress_file cont).length ≤
        (decompress cont.compressed_data cont.codes).length := by
  simp only [decompress_file, h]
  constructor
  · rw [List.length_take]
    omega
  · rw [List.length_take]
    omega

/-- C8 (witness): truncation at a concrete container with recorded length 2
and a three-symbol reconstruction. -/
theorem c8_truncate_to_original_length_witness :
    (Container.mk [('a', ['0'])] ['0', '0', '0'] (some 2)).original_length = some 2 ∧
    (decompress_file (Container.mk [('a', ['0'])] ['0', '0', '0'] (some 2))).length ≤ 2 ∧
    (decompress_file (Container.mk [('a', ['0'])] ['0', '0', '0'] (some 2))).length ≤
      (decompress (Container.mk [('a', ['0'])] ['0', '0', '0'] (some 2)).compressed_data
        (Container.mk [('a', ['0'])] ['0', '0', '0'] (some 2)).codes).length :=
  ⟨rfl, (c8_truncate_to_original_length _ 2 rfl).1,
    (c8_truncate_to_original_length _ 2 rfl).2⟩

/-- C9: every symbol the decoder emits is a key of the given code table,
whatever the bit content of the payload: characters enter the output only
through a successful reverse-table lookup. -/
theorem c9_decode_emits_table_keys (compressed_data : List Char)
    (huffman_codes : List (Char × List Char)) (c : Char)
    (h : c ∈ decompress compressed_data huffman_codes) :
    c ∈ huffman_codes.map (fun e => e.1) := by
  rw [decompress] at h
  have hm := decompressLoop_mem _ _ _ h
  simpa [List.map_map, Function.comp] using hm

/-- C9 (witness): decoding payload `"0"` against the table `{a : "0"}` emits
`a`, a key of the table. -/
theorem c9_decode_emits_table_keys_witness :
    'a' ∈ decompress ['0'] [('a', ['0'])] ∧
      'a' ∈ List.map (fun e => e.1) [('a', ['0'])] :=
  ⟨by decide, c9_decode_emits_table_keys ['0'] [('a', ['0'])] 'a' (by decide)⟩

/-- C10: decompression against an empty code table always returns the empty
string (no accumulator state can ever match), so the verbatim fallback
result produced when every symbol is dropped never decompresses back to the
original (non-empty) data. -/
theorem c10_empty_table_decodes_empty :
    (∀ payload : List Char, decompress payload [] = []) ∧
    (∀ (data : List Char) (p : Int), data ≠ [] → (compress data p).2 = [] →
      decompress (compress data p).1 (compress data p).2 ≠ data) := by
  constructor
  · intro payload
    rw [decompress]
    simpa using decompressLoop_nil_table (zlibB64Decode payload) []
  · intro data p hne hc
    rw [hc, decompress]
    simp only [List.map_nil]
    rw [decompressLoop_nil_table]
    exact fun hcon => hne hcon.symm

/-- C10 (witness): at input `"a"` and percentage 0 everything is dropped,
compress returns the fallback `("a", {})`, and decompressing it yields `""`,
not the original `"a"`. -/
theorem c10_empty_table_decodes_empty_witness :
    (['a'] : List Char) ≠ [] ∧ (compress ['a'] 0).2 = [] ∧
      decompress (compress ['a'] 0).1 (compress ['a'] 0).2 ≠ ['a'] :=
  ⟨by decide, by decide, c10_empty_table_decodes_empty.2 ['a'] 0 (by decide) (by decide)⟩

end HuffmanCompressor

end HuffmanWeb
